import Mathlib

/-!
Verification of the scirust dense matrix library: the storage model, the
constructors, the algebraic operators, views, elementary row operations and
the Gauss elimination solver, together with proofs of the specified
properties.

Matrices hold rational entries (the exact idealisation of the library's
numeric element types).  The buffer is the flat column-major element list,
with the stride equal to the number of rows (no padding), so slot
`c * num_rows + r` holds the element at row `r`, column `c`.  The library's
implementation bodies are not present in the sources (only the item
declarations and their doc comments survive), so every operation body below
is modelled from the specification, faithful to its words; the `MatrixError`
taxonomy is taken from the surviving declaration.
-/

namespace Scirust

/-- Errors related to matrix operations, exactly as declared in the library
sources: `EmptyMatrix`, `DimensionsMismatch`, `NonSquareMatrix`,
`NotAVector`. -/
inductive MatrixError where
  | EmptyMatrix
  | DimensionsMismatch
  | NonSquareMatrix
  | NotAVector
deriving DecidableEq, Repr, Fintype

instance {ε α : Type} [DecidableEq ε] [DecidableEq α] : DecidableEq (Except ε α) :=
  fun x y =>
    match x, y with
    | .ok a, .ok b =>
      if h : a = b then .isTrue (by rw [h])
      else .isFalse (by intro hc; cases hc; exact h rfl)
    | .error a, .error b =>
      if h : a = b then .isTrue (by rw [h])
      else .isFalse (by intro hc; cases hc; exact h rfl)
    | .ok _, .error _ => .isFalse (fun hc => Except.noConfusion hc)
    | .error _, .ok _ => .isFalse (fun hc => Except.noConfusion hc)

/-- Modelled from the spec: a dense matrix exclusively owning one contiguous
column-major buffer; logical size `num_rows × num_cols`.  The model keeps the
stride equal to `num_rows` (the spec allows padding, which no claim
exercises). -/
structure Matrix where
  num_rows : Nat
  num_cols : Nat
  data : List ℚ
deriving DecidableEq, Repr

namespace Matrix

/-- Modelled from the spec: well-formedness of the storage — the buffer holds
exactly `num_rows * num_cols` elements (stride equal to `num_rows`). -/
def wf (m : Matrix) : Prop := m.data.length = m.num_rows * m.num_cols

instance (m : Matrix) : Decidable m.wf := by
  unfold wf
  infer_instance

/-- Modelled from the spec: bounds-checked element access `get(r, c)` reading
the column-major buffer through `cell_to_offset`.  Out-of-range access is a
caller-validated precondition in the library; the model returns `0` there,
and every claim below only reads in bounds. -/
def get (m : Matrix) (r c : Nat) : ℚ := m.data.getD (c * m.num_rows + r) 0

/-- Modelled from the spec: build the column-major buffer of an `r × c`
matrix whose entry at row `i`, column `j` is `f i j`.  Slot `idx` holds the
entry at cell `(idx % r, idx / r)`, which is the library's
`index_to_cell`. -/
def ofFn (r c : Nat) (f : Nat → Nat → ℚ) : Matrix :=
  ⟨r, c, (List.range (r * c)).map fun idx => f (idx % r) (idx / r)⟩

theorem num_rows_ofFn (r c : Nat) (f : Nat → Nat → ℚ) : (ofFn r c f).num_rows = r := rfl

theorem num_cols_ofFn (r c : Nat) (f : Nat → Nat → ℚ) : (ofFn r c f).num_cols = c := rfl

theorem wf_ofFn (r c : Nat) (f : Nat → Nat → ℚ) : (ofFn r c f).wf := by
  simp [wf, ofFn]

theorem cellIndex_lt {i j r c : Nat} (hi : i < r) (hj : j < c) :
    j * r + i < r * c := by
  have h2 : (j + 1) * r ≤ c * r := Nat.mul_le_mul_right r hj
  have h3 : (j + 1) * r = j * r + r := by ring
  have h4 : c * r = r * c := Nat.mul_comm c r
  omega

theorem get_ofFn {r c i j : Nat} (f : Nat → Nat → ℚ) (hi : i < r) (hj : j < c) :
    (ofFn r c f).get i j = f i j := by
  have hr0 : 0 < r := Nat.lt_of_le_of_lt (Nat.zero_le i) hi
  have hlt : j * r + i < r * c := cellIndex_lt hi hj
  have hlen : j * r + i < ((List.range (r * c)).map
      fun idx => f (idx % r) (idx / r)).length := by
    simpa using hlt
  unfold ofFn get
  rw [List.getD_eq_getElem _ _ hlen]
  simp only [List.getElem_map, List.getElem_range]
  congr 1
  · rw [Nat.mul_comm j r, Nat.mul_add_mod, Nat.mod_eq_of_lt hi]
  · rw [Nat.mul_comm j r, Nat.mul_add_div hr0, Nat.div_eq_of_lt hi]
    omega

/-- Two well-formed matrices with the same dimensions and the same entries
are equal (the library's `eq` requires equal dimensions and element-wise
equality). -/
theorem ext_pointwise (m m' : Matrix) (hm : m.wf) (hm' : m'.wf)
    (hr : m.num_rows = m'.num_rows) (hc : m.num_cols = m'.num_cols)
    (h : ∀ i j, i < m.num_rows → j < m.num_cols → m.get i j = m'.get i j) :
    m = m' := by
  obtain ⟨r, c, d⟩ := m
  obtain ⟨r', c', d'⟩ := m'
  simp only [mk.injEq] at hr hc ⊢
  subst hr
  subst hc
  refine ⟨rfl, rfl, ?_⟩
  unfold wf at hm hm'
  simp only at hm hm'
  apply List.ext_getElem (by omega)
  intro idx h1 h2
  have hidx : idx < r * c := by omega
  have hr0 : 0 < r := by
    rcases Nat.eq_zero_or_pos r with h0 | h0
    · subst h0
      simp at hidx
    · exact h0
  have hi : idx % r < r := Nat.mod_lt _ hr0
  have hj : idx / r < c := by
    rw [Nat.div_lt_iff_lt_mul hr0]
    exact Nat.lt_of_lt_of_le hidx (Nat.le_of_eq (Nat.mul_comm r c))
  have := h (idx % r) (idx / r) hi hj
  unfold get at this
  simp only at this
  have heq : idx / r * r + idx % r = idx := by
    rw [Nat.mul_comm (idx / r) r]
    exact Nat.div_add_mod idx r
  rw [heq] at this
  rw [List.getD_eq_getElem _ _ (by omega : idx < d.length)] at this
  rw [List.getD_eq_getElem _ _ (by omega : idx < d'.length)] at this
  exact this

/-- Modelled from the spec: the `zeros` constructor — a matrix of all
zeros. -/
def zeros (r c : Nat) : Matrix := ofFn r c fun _ _ => 0

theorem get_zeros (r c i j : Nat) : (zeros r c).get i j = 0 := by
  unfold zeros ofFn get
  rcases Nat.lt_or_ge (j * r + i) ((List.range (r * c)).map
      fun _ => (0 : ℚ)).length with hlt | hge
  · rw [List.getD_eq_getElem _ _ hlt]
    simp
  · rw [List.getD_eq_default _ _ hge]

theorem wf_zeros (r c : Nat) : (zeros r c).wf := wf_ofFn r c _

/-- Modelled from the spec: the `identity` constructor — ones on the
diagonal, zeros elsewhere. -/
def identity (n : Nat) : Matrix := ofFn n n fun i j => if i = j then 1 else 0

theorem get_identity {n i j : Nat} (hi : i < n) (hj : j < n) :
    (identity n).get i j = if i = j then 1 else 0 := get_ofFn _ hi hj

/-- Modelled from the spec: `transpose` — a new matrix with swapped
dimensions whose entry at `(i, j)` is the source entry at `(j, i)`, with no
complex conjugation. -/
def transpose (m : Matrix) : Matrix :=
  ofFn m.num_cols m.num_rows fun i j => m.get j i

theorem get_transpose {m : Matrix} {i j : Nat} (hi : i < m.num_cols)
    (hj : j < m.num_rows) : m.transpose.get i j = m.get j i :=
  get_ofFn _ hi hj

end Matrix

/-- Claim C7: for every matrix `M`, `M.transpose().transpose() == M`;
`transpose` swaps dimensions and moves entry `(j, i)` to `(i, j)` with no
complex conjugation. -/
theorem transpose_transpose (m : Matrix) (hm : m.wf) :
    m.transpose.transpose = m := by
  apply Matrix.ext_pointwise _ _ (Matrix.wf_ofFn _ _ _) hm rfl rfl
  intro i j hi hj
  have hi' : i < m.num_rows := hi
  have hj' : j < m.num_cols := hj
  show (Matrix.ofFn m.num_rows m.num_cols fun a b => m.transpose.get b a).get i j
      = m.get i j
  rw [Matrix.get_ofFn _ hi' hj']
  exact Matrix.get_transpose hj' hi'

/-- Witness for C7 at the concrete matrix `[[1,2],[3,4]]`. -/
theorem transpose_transpose_witness :
    (Matrix.mk 2 2 [1, 3, 2, 4]).transpose.transpose = Matrix.mk 2 2 [1, 3, 2, 4] :=
  transpose_transpose _ (by decide)

namespace Matrix

/-- Modelled from the spec: the raw matrix product — entry `(i, j)` is the
sum over `k` of `a(i,k) * b(k,j)` (naive product; the shape check of `mul`
is applied by the wrapper below). -/
def mulRaw (a b : Matrix) : Matrix :=
  ofFn a.num_rows b.num_cols fun i j =>
    ∑ k ∈ Finset.range a.num_cols, a.get i k * b.get k j

/-- Modelled from the spec: `mul` (matrix product) — requires a matching
inner dimension, else fails with a dimensions-mismatch error. -/
def mul (a b : Matrix) : Except MatrixError Matrix :=
  if a.num_cols = b.num_rows then .ok (mulRaw a b)
  else .error .DimensionsMismatch

theorem get_mulRaw {a b : Matrix} {i j : Nat} (hi : i < a.num_rows)
    (hj : j < b.num_cols) :
    (mulRaw a b).get i j
      = ∑ k ∈ Finset.range a.num_cols, a.get i k * b.get k j :=
  get_ofFn _ hi hj

theorem num_rows_mulRaw (a b : Matrix) : (mulRaw a b).num_rows = a.num_rows := rfl

theorem num_cols_mulRaw (a b : Matrix) : (mulRaw a b).num_cols = b.num_cols := rfl

theorem wf_mulRaw (a b : Matrix) : (mulRaw a b).wf := wf_ofFn _ _ _

theorem mulRaw_identity_right (m : Matrix) (hm : m.wf) :
    mulRaw m (identity m.num_cols) = m := by
  apply ext_pointwise _ _ (wf_ofFn _ _ _) hm rfl rfl
  intro i j hi hj
  have hi' : i < m.num_rows := hi
  have hj' : j < m.num_cols := hj
  have h2 : ∀ k ∈ Finset.range m.num_cols,
      m.get i k * (identity m.num_cols).get k j
        = if k = j then m.get i k else 0 := by
    intro k hk
    rw [get_identity (Finset.mem_range.mp hk) hj']
    by_cases hkj : k = j <;> simp [hkj]
  rw [get_ofFn _ hi' hj', Finset.sum_congr rfl h2,
    Finset.sum_ite_eq' (Finset.range m.num_cols) j fun k => m.get i k]
  simp [Finset.mem_range.mpr hj']

theorem mulRaw_identity_left (n : Nat) (y : Matrix) (hy : y.wf)
    (hr : y.num_rows = n) : mulRaw (identity n) y = y := by
  apply ext_pointwise _ _ (wf_ofFn _ _ _) hy hr.symm rfl
  intro i j hi hj
  have hi' : i < n := hi
  have hj' : j < y.num_cols := hj
  have h2 : ∀ k ∈ Finset.range n,
      (identity n).get i k * y.get k j
        = if i = k then y.get k j else 0 := by
    intro k hk
    rw [get_identity hi' (Finset.mem_range.mp hk)]
    by_cases hik : i = k <;> simp [hik]
  rw [get_ofFn _ hi' hj']
  show (∑ k ∈ Finset.range n, (identity n).get i k * y.get k j) = y.get i j
  rw [Finset.sum_congr rfl h2,
    Finset.sum_ite_eq (Finset.range n) i fun k => y.get k j]
  simp [Finset.mem_range.mpr hi']

end Matrix

/-- Claim C8: for every square matrix `M` of size `n`, multiplying by the
identity on either side is the identity operation:
`M.mul(identity(n)) == M` and `identity(n).mul(M) == M`. -/
theorem mul_identity_both (m : Matrix) (hm : m.wf)
    (hsq : m.num_rows = m.num_cols) :
    m.mul (Matrix.identity m.num_rows) = .ok m ∧
      (Matrix.identity m.num_rows).mul m = .ok m := by
  constructor
  · unfold Matrix.mul
    rw [if_pos (show m.num_cols = (Matrix.identity m.num_rows).num_rows from hsq.symm)]
    rw [hsq]
    exact congrArg Except.ok (Matrix.mulRaw_identity_right m hm)
  · unfold Matrix.mul
    rw [if_pos (show (Matrix.identity m.num_rows).num_cols = m.num_rows from rfl)]
    exact congrArg Except.ok (Matrix.mulRaw_identity_left m.num_rows m hm rfl)

/-- Witness for C8 at the concrete matrix `[[1,2],[3,4]]`. -/
theorem mul_identity_both_witness :
    (Matrix.mk 2 2 [1, 3, 2, 4]).mul (Matrix.identity 2) = .ok (Matrix.mk 2 2 [1, 3, 2, 4]) ∧
      (Matrix.identity 2).mul (Matrix.mk 2 2 [1, 3, 2, 4]) = .ok (Matrix.mk 2 2 [1, 3, 2, 4]) :=
  mul_identity_both _ (by decide) (by decide)

namespace Matrix

/-- Modelled from the spec: `sub_matrix(r0, c0, rows, cols)` extracts a
window with the wrap/tile policy — if the requested extent exceeds the
source's remaining rows/columns, indices wrap modulo the source dimensions
rather than failing (the library doc: rows and columns can repeat when more
are requested than present). -/
def sub_matrix (m : Matrix) (r0 c0 nr nc : Nat) : Matrix :=
  ofFn nr nc fun i j => m.get ((r0 + i) % m.num_rows) ((c0 + j) % m.num_cols)

end Matrix

/-- Claim C4: `sub_matrix(r0, c0, rows, cols)` tiles — the result's entry at
`(i, j)` is the source entry at `((r0+i) mod num_rows, (c0+j) mod num_cols)`,
so over-sized requests wrap instead of failing; in particular for
`M=[[1,2],[3,4]]`, `sub_matrix(M,0,0,3,3) = [[1,2,1],[3,4,3],[1,2,1]]`. -/
theorem sub_matrix_tiling :
    (∀ (m : Matrix) (r0 c0 nr nc i j : Nat), i < nr → j < nc →
      (m.sub_matrix r0 c0 nr nc).get i j
        = m.get ((r0 + i) % m.num_rows) ((c0 + j) % m.num_cols)) ∧
    Matrix.sub_matrix ⟨2, 2, [1, 3, 2, 4]⟩ 0 0 3 3
      = ⟨3, 3, [1, 3, 1, 2, 4, 2, 1, 3, 1]⟩ := by
  constructor
  · intro m r0 c0 nr nc i j hi hj
    exact Matrix.get_ofFn _ hi hj
  · decide

/-- Witness for C4: the tiling formula read off at the bottom-right corner
of the 3×3 request over the 2×2 source. -/
theorem sub_matrix_tiling_witness :
    (Matrix.sub_matrix ⟨2, 2, [1, 3, 2, 4]⟩ 0 0 3 3).get 2 2
      = (Matrix.mk 2 2 [1, 3, 2, 4]).get ((0 + 2) % 2) ((0 + 2) % 2) :=
  sub_matrix_tiling.1 ⟨2, 2, [1, 3, 2, 4]⟩ 0 0 3 3 2 2 (by decide) (by decide)

namespace Matrix

/-- Modelled from the spec: `is_identity` — the matrix is square with unit
diagonal and zero off-diagonal entries. -/
def is_identity (m : Matrix) : Bool :=
  decide (m.num_rows = m.num_cols) &&
    (List.range m.num_rows).all fun i =>
      (List.range m.num_cols).all fun j =>
        decide (m.get i j = if i = j then 1 else 0)

/-- Modelled from the spec: `is_col` — the matrix is a column vector
(exactly one column). -/
def is_col (m : Matrix) : Bool := decide (m.num_cols = 1)

/-- Modelled from the spec: `inner_prod` — operates only on column vectors
of equal length, failing with a not-a-vector or dimensions-mismatch error
otherwise; yields the scalar `aᵗb`. -/
def inner_prod (a b : Matrix) : Except MatrixError ℚ :=
  if a.is_col = true ∧ b.is_col = true then
    if a.num_rows = b.num_rows then
      .ok (∑ k ∈ Finset.range a.num_rows, a.get k 0 * b.get k 0)
    else .error .DimensionsMismatch
  else .error .NotAVector

/-- Modelled from the spec: `outer_prod` — operates only on column vectors
of equal length, failing with a not-a-vector or dimensions-mismatch error
otherwise; yields the N×N matrix `abᵗ`. -/
def outer_prod (a b : Matrix) : Except MatrixError Matrix :=
  if a.is_col = true ∧ b.is_col = true then
    if a.num_rows = b.num_rows then
      .ok (ofFn a.num_rows a.num_rows fun i j => a.get i 0 * b.get j 0)
    else .error .DimensionsMismatch
  else .error .NotAVector

end Matrix

/-- Claim C10: `is_identity(identity(n))` is true for every `n ≥ 1`, and
`is_identity` is false for any non-square matrix, any matrix with a nonzero
off-diagonal entry and any matrix with a diagonal entry different from 1. -/
theorem is_identity_spec :
    (∀ n : Nat, 1 ≤ n → (Matrix.identity n).is_identity = true) ∧
    (∀ m : Matrix, m.num_rows ≠ m.num_cols → m.is_identity = false) ∧
    (∀ m : Matrix, ∀ i j : Nat, i < m.num_rows → j < m.num_cols → i ≠ j →
      m.get i j ≠ 0 → m.is_identity = false) ∧
    (∀ m : Matrix, ∀ i : Nat, i < m.num_rows → i < m.num_cols →
      m.get i i ≠ 1 → m.is_identity = false) := by
  refine ⟨?_, ?_, ?_, ?_⟩
  · intro n hn
    unfold Matrix.is_identity
    simp only [Bool.and_eq_true, decide_eq_true_eq, List.all_eq_true,
      List.mem_range]
    refine ⟨rfl, ?_⟩
    intro i hi j hj
    exact Matrix.get_identity hi hj
  · intro m hne
    unfold Matrix.is_identity
    simp [hne]
  · intro m i j hi hj hne hval
    rw [Bool.eq_false_iff]
    intro htrue
    unfold Matrix.is_identity at htrue
    simp only [Bool.and_eq_true, decide_eq_true_eq, List.all_eq_true,
      List.mem_range] at htrue
    have := htrue.2 i hi j hj
    rw [if_neg hne] at this
    exact hval this
  · intro m i hir hic hval
    rw [Bool.eq_false_iff]
    intro htrue
    unfold Matrix.is_identity at htrue
    simp only [Bool.and_eq_true, decide_eq_true_eq, List.all_eq_true,
      List.mem_range] at htrue
    have := htrue.2 i hir i hic
    rw [if_pos rfl] at this
    exact hval this

/-- Witness for C10: `identity 2` is recognised, and a nonzero off-diagonal
entry is rejected. -/
theorem is_identity_spec_witness :
    (Matrix.identity 2).is_identity = true ∧
      (Matrix.mk 2 2 [1, 5, 0, 1]).is_identity = false :=
  ⟨is_identity_spec.1 2 (by decide),
    is_identity_spec.2.2.1 ⟨2, 2, [1, 5, 0, 1]⟩ 1 0 (by decide) (by decide)
      (by decide) (by decide)⟩

/-- Claim C9: `inner_prod` and `outer_prod` operate on column vectors of
equal length: the inner product is the scalar `aᵗb` (the `(0,0)` entry of
`transpose(a) * b`), the outer product has entries `a[i]*b[j]`; a
non-column-vector argument fails with `NotAVector` and a length mismatch
with `DimensionsMismatch`; `inner_prod([1,2,3],[4,5,6]) == 32`. -/
theorem inner_outer_prod_spec :
    (∀ a b : Matrix, a.is_col = true → b.is_col = true →
      a.num_rows = b.num_rows →
      Matrix.inner_prod a b = .ok ((Matrix.mulRaw a.transpose b).get 0 0)) ∧
    (∀ a b : Matrix, a.is_col = true → b.is_col = true →
      a.num_rows = b.num_rows →
      ∃ o : Matrix, Matrix.outer_prod a b = .ok o ∧
        o.num_rows = a.num_rows ∧ o.num_cols = a.num_rows ∧
        ∀ i j : Nat, i < a.num_rows → j < a.num_rows →
          o.get i j = a.get i 0 * b.get j 0) ∧
    (∀ a b : Matrix, ¬(a.is_col = true ∧ b.is_col = true) →
      Matrix.inner_prod a b = .error .NotAVector ∧
        Matrix.outer_prod a b = .error .NotAVector) ∧
    (∀ a b : Matrix, a.is_col = true → b.is_col = true →
      a.num_rows ≠ b.num_rows →
      Matrix.inner_prod a b = .error .DimensionsMismatch ∧
        Matrix.outer_prod a b = .error .DimensionsMismatch) ∧
    Matrix.inner_prod ⟨3, 1, [1, 2, 3]⟩ ⟨3, 1, [4, 5, 6]⟩ = .ok 32 := by
  refine ⟨?_, ?_, ?_, ?_, ?_⟩
  · intro a b ha hb hlen
    have hac : a.num_cols = 1 := of_decide_eq_true ha
    have hbc : b.num_cols = 1 := of_decide_eq_true hb
    unfold Matrix.inner_prod
    rw [if_pos ⟨ha, hb⟩, if_pos hlen]
    have h00 : (Matrix.mulRaw a.transpose b).get 0 0
        = ∑ k ∈ Finset.range a.transpose.num_cols,
            a.transpose.get 0 k * b.get k 0 :=
      Matrix.get_ofFn _ (show 0 < a.num_cols by omega) (by omega)
    rw [h00]
    show Except.ok (∑ k ∈ Finset.range a.num_rows, a.get k 0 * b.get k 0) = _
    refine congrArg Except.ok (Finset.sum_congr rfl ?_)
    intro k hk
    rw [Matrix.get_transpose (show 0 < a.num_cols by omega)
      (Finset.mem_range.mp hk)]
  · intro a b ha hb hlen
    refine ⟨Matrix.ofFn a.num_rows a.num_rows fun i j => a.get i 0 * b.get j 0,
      ?_, rfl, rfl, ?_⟩
    · unfold Matrix.outer_prod
      rw [if_pos ⟨ha, hb⟩, if_pos hlen]
    · intro i j hi hj
      exact Matrix.get_ofFn _ hi hj
  · intro a b hnot
    constructor
    · unfold Matrix.inner_prod
      rw [if_neg hnot]
    · unfold Matrix.outer_prod
      rw [if_neg hnot]
  · intro a b ha hb hne
    constructor
    · unfold Matrix.inner_prod
      rw [if_pos ⟨ha, hb⟩, if_neg hne]
    · unfold Matrix.outer_prod
      rw [if_pos ⟨ha, hb⟩, if_neg hne]
  · norm_num [Matrix.inner_prod, Matrix.is_col, Matrix.get,
      Finset.sum_range_succ]

/-- Witness for C9: the concrete inner product of `[1,2,3]` and `[4,5,6]`
equals the `(0,0)` entry of `transpose(a) * b`. -/
theorem inner_outer_prod_spec_witness :
    Matrix.inner_prod ⟨3, 1, [1, 2, 3]⟩ ⟨3, 1, [4, 5, 6]⟩
      = .ok ((Matrix.mulRaw (Matrix.transpose ⟨3, 1, [1, 2, 3]⟩) ⟨3, 1, [4, 5, 6]⟩).get 0 0) :=
  inner_outer_prod_spec.1 ⟨3, 1, [1, 2, 3]⟩ ⟨3, 1, [4, 5, 6]⟩ (by decide)
    (by decide) (by decide)

/-- Modelled from the spec: a View — a non-owning rectangular window into a
parent matrix, defined by `start_row`, `start_col`, `num_rows`, `num_cols`;
every access resolves against the parent's storage (the model passes the
parent explicitly and returns the updated parent from mutating
operations). -/
structure MatrixView where
  start_row : Nat
  start_col : Nat
  num_rows : Nat
  num_cols : Nat
deriving DecidableEq, Repr

/-- Modelled from the spec: constructing a View whose window exceeds the
parent's current bounds fails with a dimensions-mismatch error. -/
def MatrixView.new (m : Matrix) (sr sc nr nc : Nat) :
    Except MatrixError MatrixView :=
  if sr + nr ≤ m.num_rows ∧ sc + nc ≤ m.num_cols then .ok ⟨sr, sc, nr, nc⟩
  else .error .DimensionsMismatch

/-- Modelled from the spec: element access through a View, resolved against
the parent's storage through the view's origin. -/
def MatrixView.get (v : MatrixView) (m : Matrix) (r c : Nat) : ℚ :=
  m.get (v.start_row + r) (v.start_col + c)

/-- Modelled from the spec: `ero_scale_add(i, j, k)` on a View —
`row_i := row_i + k * row_j` over the view's window of columns, where the
`j`-th row is relative to the start of the view and may also lie outside the
view (relative addressing into the parent). -/
def MatrixView.ero_scale_add (v : MatrixView) (m : Matrix) (i j : Nat)
    (k : ℚ) : Matrix :=
  Matrix.ofFn m.num_rows m.num_cols fun r c =>
    if r = v.start_row + i ∧ v.start_col ≤ c ∧ c < v.start_col + v.num_cols then
      m.get r c + k * m.get (v.start_row + j) c
    else m.get r c

/-- Claim C6: a View constructs successfully exactly when its window is
fully contained in the parent's bounds, and fails with `DimensionsMismatch`
otherwise. -/
theorem view_new_spec (m : Matrix) (sr sc nr nc : Nat) :
    (sr + nr ≤ m.num_rows ∧ sc + nc ≤ m.num_cols →
      MatrixView.new m sr sc nr nc = .ok ⟨sr, sc, nr, nc⟩) ∧
    (¬(sr + nr ≤ m.num_rows ∧ sc + nc ≤ m.num_cols) →
      MatrixView.new m sr sc nr nc = .error .DimensionsMismatch) := by
  constructor
  · intro h
    unfold MatrixView.new
    rw [if_pos h]
  · intro h
    unfold MatrixView.new
    rw [if_neg h]

/-- Witness for C6 on a 2×2 parent: the full window constructs, a 3-row
window fails. -/
theorem view_new_spec_witness :
    MatrixView.new ⟨2, 2, [1, 3, 2, 4]⟩ 0 0 2 2 = .ok ⟨0, 0, 2, 2⟩ ∧
      MatrixView.new ⟨2, 2, [1, 3, 2, 4]⟩ 0 0 3 2 = .error .DimensionsMismatch :=
  ⟨(view_new_spec ⟨2, 2, [1, 3, 2, 4]⟩ 0 0 2 2).1 (by decide),
    (view_new_spec ⟨2, 2, [1, 3, 2, 4]⟩ 0 0 3 2).2 (by decide)⟩

/-- Claim C5: `ero_scale_add(i, j, k)` on a View whose row `j` resolves
outside the view's window but inside the parent succeeds, sets row `i` of
the view to `row_i + k * row_j`, and leaves every parent element outside row
`i` of the view's window unchanged. -/
theorem view_ero_scale_add_frame (m : Matrix) (v : MatrixView) (i j : Nat)
    (k : ℚ) (hwr : v.start_row + v.num_rows ≤ m.num_rows)
    (hwc : v.start_col + v.num_cols ≤ m.num_cols) (hi : i < v.num_rows)
    (hjout : v.num_rows ≤ j) (hjin : v.start_row + j < m.num_rows) :
    (v.ero_scale_add m i j k).num_rows = m.num_rows ∧
    (v.ero_scale_add m i j k).num_cols = m.num_cols ∧
    (∀ c : Nat, c < v.num_cols →
      v.get (v.ero_scale_add m i j k) i c = v.get m i c + k * v.get m j c) ∧
    (∀ r c : Nat, r < m.num_rows → c < m.num_cols →
      (r ≠ v.start_row + i ∨ c < v.start_col ∨ v.start_col + v.num_cols ≤ c) →
      (v.ero_scale_add m i j k).get r c = m.get r c) := by
  refine ⟨rfl, rfl, ?_, ?_⟩
  · intro c hc
    show (v.ero_scale_add m i j k).get (v.start_row + i) (v.start_col + c) = _
    unfold MatrixView.ero_scale_add
    rw [Matrix.get_ofFn _ (by omega) (by omega)]
    rw [if_pos ⟨rfl, by omega, by omega⟩]
    rfl
  · intro r c hr hc hout
    unfold MatrixView.ero_scale_add
    rw [Matrix.get_ofFn _ hr hc]
    rw [if_neg ?_]
    intro hcond
    rcases hout with h | h | h
    · exact h hcond.1
    · omega
    · omega

/-- Witness for C5: a 1×1 view at the origin of a 3×1 parent, pivoting
against parent row 2 (outside the window), scaled by 10. -/
theorem view_ero_scale_add_frame_witness :
    ((MatrixView.mk 0 0 1 1).ero_scale_add ⟨3, 1, [1, 2, 3]⟩ 0 2 10).num_rows = 3 ∧
    ((MatrixView.mk 0 0 1 1).ero_scale_add ⟨3, 1, [1, 2, 3]⟩ 0 2 10).num_cols = 1 ∧
    (∀ c : Nat, c < 1 →
      (MatrixView.mk 0 0 1 1).get
          ((MatrixView.mk 0 0 1 1).ero_scale_add ⟨3, 1, [1, 2, 3]⟩ 0 2 10) 0 c
        = (MatrixView.mk 0 0 1 1).get ⟨3, 1, [1, 2, 3]⟩ 0 c
            + 10 * (MatrixView.mk 0 0 1 1).get ⟨3, 1, [1, 2, 3]⟩ 2 c) ∧
    (∀ r c : Nat, r < 3 → c < 1 → (r ≠ 0 + 0 ∨ c < 0 ∨ 0 + 1 ≤ c) →
      ((MatrixView.mk 0 0 1 1).ero_scale_add ⟨3, 1, [1, 2, 3]⟩ 0 2 10).get r c
        = (Matrix.mk 3 1 [1, 2, 3]).get r c) :=
  view_ero_scale_add_frame ⟨3, 1, [1, 2, 3]⟩ ⟨0, 0, 1, 1⟩ 0 2 10 (by decide)
    (by decide) (by decide) (by decide) (by decide)

namespace Matrix

/-- Modelled from the spec: `ero_switch(i, j)` — swap rows `i` and `j` in
place. -/
def ero_switch (m : Matrix) (i j : Nat) : Matrix :=
  ofFn m.num_rows m.num_cols fun r c =>
    if r = i then m.get j c else if r = j then m.get i c else m.get r c

/-- Modelled from the spec: `ero_scale(i, k)` — multiply row `i` by the
scalar `k` in place. -/
def ero_scale (m : Matrix) (i : Nat) (k : ℚ) : Matrix :=
  ofFn m.num_rows m.num_cols fun r c =>
    if r = i then k * m.get r c else m.get r c

/-- Modelled from the spec: `ero_scale_add(i, j, k)` —
`row_i := row_i + k * row_j` in place. -/
def ero_scale_add (m : Matrix) (i j : Nat) (k : ℚ) : Matrix :=
  ofFn m.num_rows m.num_cols fun r c =>
    if r = i then m.get r c + k * m.get j c else m.get r c

theorem num_rows_ero_switch (m : Matrix) (i j : Nat) :
    (m.ero_switch i j).num_rows = m.num_rows := rfl

theorem num_cols_ero_switch (m : Matrix) (i j : Nat) :
    (m.ero_switch i j).num_cols = m.num_cols := rfl

theorem wf_ero_switch (m : Matrix) (i j : Nat) : (m.ero_switch i j).wf :=
  wf_ofFn _ _ _

theorem num_rows_ero_scale (m : Matrix) (i : Nat) (k : ℚ) :
    (m.ero_scale i k).num_rows = m.num_rows := rfl

theorem num_cols_ero_scale (m : Matrix) (i : Nat) (k : ℚ) :
    (m.ero_scale i k).num_cols = m.num_cols := rfl

theorem wf_ero_scale (m : Matrix) (i : Nat) (k : ℚ) : (m.ero_scale i k).wf :=
  wf_ofFn _ _ _

theorem num_rows_ero_scale_add (m : Matrix) (i j : Nat) (k : ℚ) :
    (m.ero_scale_add i j k).num_rows = m.num_rows := rfl

theorem num_cols_ero_scale_add (m : Matrix) (i j : Nat) (k : ℚ) :
    (m.ero_scale_add i j k).num_cols = m.num_cols := rfl

theorem wf_ero_scale_add (m : Matrix) (i j : Nat) (k : ℚ) :
    (m.ero_scale_add i j k).wf := wf_ofFn _ _ _

theorem get_ero_switch {m : Matrix} {i j r c : Nat} (hr : r < m.num_rows)
    (hc : c < m.num_cols) :
    (m.ero_switch i j).get r c
      = if r = i then m.get j c else if r = j then m.get i c else m.get r c :=
  get_ofFn _ hr hc

theorem get_ero_scale {m : Matrix} {i r c : Nat} {k : ℚ} (hr : r < m.num_rows)
    (hc : c < m.num_cols) :
    (m.ero_scale i k).get r c = if r = i then k * m.get r c else m.get r c :=
  get_ofFn _ hr hc

theorem get_ero_scale_add {m : Matrix} {i j r c : Nat} {k : ℚ}
    (hr : r < m.num_rows) (hc : c < m.num_cols) :
    (m.ero_scale_add i j k).get r c
      = if r = i then m.get r c + k * m.get j c else m.get r c :=
  get_ofFn _ hr hc

theorem ero_switch_self (m : Matrix) (hm : m.wf) (i : Nat) :
    m.ero_switch i i = m := by
  apply ext_pointwise (m.ero_switch i i) m (wf_ero_switch m i i) hm rfl rfl
  intro r c hr hc
  have hr' : r < m.num_rows := hr
  have hc' : c < m.num_cols := hc
  rw [get_ero_switch hr' hc']
  by_cases hri : r = i <;> simp [hri]

theorem ero_switch_ero_switch (m : Matrix) (hm : m.wf) (i j : Nat)
    (hi : i < m.num_rows) (hj : j < m.num_rows) :
    (m.ero_switch i j).ero_switch i j = m := by
  apply ext_pointwise ((m.ero_switch i j).ero_switch i j) m
    (wf_ero_switch (m.ero_switch i j) i j) hm rfl rfl
  intro r c hr hc
  have hr' : r < m.num_rows := hr
  have hc' : c < m.num_cols := hc
  rw [get_ero_switch (show r < (m.ero_switch i j).num_rows from hr')
    (show c < (m.ero_switch i j).num_cols from hc')]
  by_cases hri : r = i
  · rw [if_pos hri, get_ero_switch hj hc']
    by_cases hji : j = i
    · rw [if_pos hji, hji, hri]
    · rw [if_neg hji, if_pos rfl, hri]
  · rw [if_neg hri]
    by_cases hrj : r = j
    · rw [if_pos hrj, get_ero_switch hi hc', if_pos rfl, hrj]
    · rw [if_neg hrj, get_ero_switch hr' hc', if_neg hri, if_neg hrj]

theorem ero_scale_ero_scale (m : Matrix) (hm : m.wf) (i : Nat) (k k' : ℚ)
    (hkk : k' * k = 1) : (m.ero_scale i k).ero_scale i k' = m := by
  apply ext_pointwise ((m.ero_scale i k).ero_scale i k') m
    (wf_ero_scale (m.ero_scale i k) i k') hm rfl rfl
  intro r c hr hc
  have hr' : r < m.num_rows := hr
  have hc' : c < m.num_cols := hc
  rw [get_ero_scale (show r < (m.ero_scale i k).num_rows from hr')
    (show c < (m.ero_scale i k).num_cols from hc'),
    get_ero_scale hr' hc']
  by_cases hri : r = i
  · rw [if_pos hri, if_pos hri, ← mul_assoc, hkk, one_mul]
  · rw [if_neg hri, if_neg hri]

theorem ero_scale_add_ero_scale_add (m : Matrix) (hm : m.wf) (i j : Nat)
    (k : ℚ) (hij : i ≠ j) (hj : j < m.num_rows) :
    (m.ero_scale_add i j k).ero_scale_add i j (-k) = m := by
  apply ext_pointwise ((m.ero_scale_add i j k).ero_scale_add i j (-k)) m
    (wf_ero_scale_add (m.ero_scale_add i j k) i j (-k)) hm rfl rfl
  intro r c hr hc
  have hr' : r < m.num_rows := hr
  have hc' : c < m.num_cols := hc
  rw [get_ero_scale_add (show r < (m.ero_scale_add i j k).num_rows from hr')
    (show c < (m.ero_scale_add i j k).num_cols from hc'),
    get_ero_scale_add hr' hc']
  by_cases hri : r = i
  · rw [if_pos hri, if_pos hri, get_ero_scale_add hj hc',
      if_neg (show j ≠ i from fun h => hij h.symm)]
    ring
  · rw [if_neg hri, if_neg hri]

theorem mulRaw_ero_switch (a x : Matrix) (i j : Nat) (hi : i < a.num_rows)
    (hj : j < a.num_rows) :
    mulRaw (a.ero_switch i j) x = (mulRaw a x).ero_switch i j := by
  apply ext_pointwise (mulRaw (a.ero_switch i j) x) ((mulRaw a x).ero_switch i j)
    (wf_mulRaw (a.ero_switch i j) x) (wf_ero_switch (mulRaw a x) i j) rfl rfl
  intro r c hr hc
  have hr' : r < a.num_rows := hr
  have hc' : c < x.num_cols := hc
  have hL : (mulRaw (a.ero_switch i j) x).get r c
      = ∑ t ∈ Finset.range a.num_cols, (a.ero_switch i j).get r t * x.get t c :=
    get_mulRaw hr' hc'
  have hR : ((mulRaw a x).ero_switch i j).get r c
      = if r = i then (mulRaw a x).get j c
        else if r = j then (mulRaw a x).get i c else (mulRaw a x).get r c :=
    get_ero_switch hr' hc'
  rw [hL, hR]
  by_cases hri : r = i
  · rw [if_pos hri, get_mulRaw hj hc']
    refine Finset.sum_congr rfl fun t ht => ?_
    rw [get_ero_switch hr' (Finset.mem_range.mp ht), if_pos hri]
  · rw [if_neg hri]
    by_cases hrj : r = j
    · rw [if_pos hrj, get_mulRaw hi hc']
      refine Finset.sum_congr rfl fun t ht => ?_
      rw [get_ero_switch hr' (Finset.mem_range.mp ht), if_neg hri, if_pos hrj]
    · rw [if_neg hrj, get_mulRaw hr' hc']
      refine Finset.sum_congr rfl fun t ht => ?_
      rw [get_ero_switch hr' (Finset.mem_range.mp ht), if_neg hri, if_neg hrj]

theorem mulRaw_ero_scale (a x : Matrix) (i : Nat) (k : ℚ)
    (hi : i < a.num_rows) :
    mulRaw (a.ero_scale i k) x = (mulRaw a x).ero_scale i k := by
  apply ext_pointwise (mulRaw (a.ero_scale i k) x) ((mulRaw a x).ero_scale i k)
    (wf_mulRaw (a.ero_scale i k) x) (wf_ero_scale (mulRaw a x) i k) rfl rfl
  intro r c hr hc
  have hr' : r < a.num_rows := hr
  have hc' : c < x.num_cols := hc
  have hL : (mulRaw (a.ero_scale i k) x).get r c
      = ∑ t ∈ Finset.range a.num_cols, (a.ero_scale i k).get r t * x.get t c :=
    get_mulRaw hr' hc'
  have hR : ((mulRaw a x).ero_scale i k).get r c
      = if r = i then k * (mulRaw a x).get r c else (mulRaw a x).get r c :=
    get_ero_scale hr' hc'
  rw [hL, hR]
  by_cases hri : r = i
  · rw [if_pos hri, get_mulRaw hr' hc', Finset.mul_sum]
    refine Finset.sum_congr rfl fun t ht => ?_
    rw [get_ero_scale hr' (Finset.mem_range.mp ht), if_pos hri, mul_assoc]
  · rw [if_neg hri, get_mulRaw hr' hc']
    refine Finset.sum_congr rfl fun t ht => ?_
    rw [get_ero_scale hr' (Finset.mem_range.mp ht), if_neg hri]

theorem mulRaw_ero_scale_add (a x : Matrix) (i j : Nat) (k : ℚ)
    (hi : i < a.num_rows) (hj : j < a.num_rows) :
    mulRaw (a.ero_scale_add i j k) x = (mulRaw a x).ero_scale_add i j k := by
  apply ext_pointwise (mulRaw (a.ero_scale_add i j k) x)
    ((mulRaw a x).ero_scale_add i j k) (wf_mulRaw (a.ero_scale_add i j k) x)
    (wf_ero_scale_add (mulRaw a x) i j k) rfl rfl
  intro r c hr hc
  have hr' : r < a.num_rows := hr
  have hc' : c < x.num_cols := hc
  have hL : (mulRaw (a.ero_scale_add i j k) x).get r c
      = ∑ t ∈ Finset.range a.num_cols,
          (a.ero_scale_add i j k).get r t * x.get t c :=
    get_mulRaw hr' hc'
  have hR : ((mulRaw a x).ero_scale_add i j k).get r c
      = if r = i then (mulRaw a x).get r c + k * (mulRaw a x).get j c
        else (mulRaw a x).get r c :=
    get_ero_scale_add hr' hc'
  rw [hL, hR]
  by_cases hri : r = i
  · rw [if_pos hri, get_mulRaw hr' hc', get_mulRaw hj hc']
    have hcong : ∀ t ∈ Finset.range a.num_cols,
        (a.ero_scale_add i j k).get r t * x.get t c
          = a.get r t * x.get t c + k * (a.get j t * x.get t c) := by
      intro t ht
      rw [get_ero_scale_add hr' (Finset.mem_range.mp ht), if_pos hri]
      ring
    rw [Finset.sum_congr rfl hcong, Finset.sum_add_distrib, ← Finset.mul_sum]
  · rw [if_neg hri, get_mulRaw hr' hc']
    refine Finset.sum_congr rfl fun t ht => ?_
    rw [get_ero_scale_add hr' (Finset.mem_range.mp ht), if_neg hri]

theorem ero_switch_zeros (r c i j : Nat) :
    (zeros r c).ero_switch i j = zeros r c := by
  apply ext_pointwise ((zeros r c).ero_switch i j) (zeros r c)
    (wf_ero_switch (zeros r c) i j) (wf_zeros r c) rfl rfl
  intro a b ha hb
  have ha' : a < (zeros r c).num_rows := ha
  have hb' : b < (zeros r c).num_cols := hb
  rw [get_ero_switch ha' hb']
  simp [get_zeros]

theorem ero_scale_zeros (r c i : Nat) (k : ℚ) :
    (zeros r c).ero_scale i k = zeros r c := by
  apply ext_pointwise ((zeros r c).ero_scale i k) (zeros r c)
    (wf_ero_scale (zeros r c) i k) (wf_zeros r c) rfl rfl
  intro a b ha hb
  have ha' : a < (zeros r c).num_rows := ha
  have hb' : b < (zeros r c).num_cols := hb
  rw [get_ero_scale ha' hb']
  simp [get_zeros]

theorem ero_scale_add_zeros (r c i j : Nat) (k : ℚ) :
    (zeros r c).ero_scale_add i j k = zeros r c := by
  apply ext_pointwise ((zeros r c).ero_scale_add i j k) (zeros r c)
    (wf_ero_scale_add (zeros r c) i j k) (wf_zeros r c) rfl rfl
  intro a b ha hb
  have ha' : a < (zeros r c).num_rows := ha
  have hb' : b < (zeros r c).num_cols := hb
  rw [get_ero_scale_add ha' hb']
  simp [get_zeros]

end Matrix

/-- Modelled from the spec: the pivot search of the Gauss solver — scan the
rows `≥ k` top-to-bottom for the first nonzero entry in column `k`. -/
def findPivot (m : Matrix) (k : Nat) : Option Nat :=
  (List.range' k (m.num_rows - k)).find? fun r => decide (m.get r k ≠ 0)

/-- Modelled from the spec: the elimination sweep of one pivot column `k` —
for every row `r2` other than `k`, `scale_add` with the negated factor
`-(a(r2, k))` zeroes column `k` in that row; the same row operation is
applied to the coefficient part and the right-hand-side part of the
conceptually augmented system. -/
def elimFold (k : Nat) (L : List Nat) (st : Matrix × Matrix) :
    Matrix × Matrix :=
  L.foldl
    (fun st2 r2 =>
      if r2 = k then st2
      else (st2.1.ero_scale_add r2 k (-(st2.1.get r2 k)),
        st2.2.ero_scale_add r2 k (-(st2.1.get r2 k))))
    st

/-- Modelled from the spec: pivot normalization — `scale` brings the pivot
to 1, skipped when the pivot is already 1 (to avoid needless rounding). -/
def scaleStep (k : Nat) (st : Matrix × Matrix) : Matrix × Matrix :=
  if st.1.get k k = 1 then st
  else (st.1.ero_scale k (1 / st.1.get k k),
    st.2.ero_scale k (1 / st.1.get k k))

/-- Modelled from the spec: the whole treatment of one pivot column `k` —
the pivot search over rows `≥ k` (failing means singular), `switch` bringing
the pivot row to position `k`, normalization, and the elimination sweep over
every other row, above and below. -/
def elimStep (n : Nat) (st : Matrix × Matrix) (k : Nat) :
    Option (Matrix × Matrix) :=
  match findPivot st.1 k with
  | none => none
  | some r =>
    some (elimFold k (List.range n)
      (scaleStep k (st.1.ero_switch k r, st.2.ero_switch k r)))

/-- Modelled from the spec: the loop of the Gauss solver over the pivot
columns. -/
def elimLoop (n : Nat) : List Nat → Matrix × Matrix → Option (Matrix × Matrix)
  | [], st => some st
  | k :: ks, st =>
    match elimStep n st k with
    | none => none
    | some st1 => elimLoop n ks st1

/-- A Gauss elimination problem specification, holding the coefficient
matrix `a` and the right-hand side `b` (from the source declaration). -/
structure GaussElimination where
  a : Matrix
  b : Matrix
deriving DecidableEq, Repr

/-- Modelled from the spec: setup of a new Gauss elimination problem —
validated at construction: `a` square (else a non-square error), `b`'s row
count equal to `a`'s (else a dimensions-mismatch error). -/
def GaussElimination.new (a b : Matrix) : Except MatrixError GaussElimination :=
  if a.num_rows = a.num_cols then
    if b.num_rows = a.num_rows then .ok ⟨a, b⟩
    else .error .DimensionsMismatch
  else .error .NonSquareMatrix

/-- Modelled from the spec: the singular-matrix failure of the Gauss solver
(`SingularMatrix` is not a variant of the `MatrixError` declaration that
survives in the sources, so the solver's failure is modelled as its own
value). -/
inductive SolverError where
  | SingularMatrix
deriving DecidableEq, Repr, Fintype

/-- Modelled from the spec: `solve` — reduce the conceptually augmented
system to reduced row-echelon form column by column; the transformed
right-hand side becomes the returned solution, and a failed pivot search
means the system is singular. -/
def GaussElimination.solve (g : GaussElimination) : Except SolverError Matrix :=
  match elimLoop g.a.num_rows (List.range g.a.num_rows) (g.a, g.b) with
  | none => .error .SingularMatrix
  | some st => .ok st.2

/-- The dimension and well-formedness invariant of the solver state: the
coefficient part is a well-formed `n × n` matrix and the right-hand-side
part a well-formed `n × m2` matrix. -/
structure StInv (n m2 : Nat) (st : Matrix × Matrix) : Prop where
  wa : st.1.wf
  wb : st.2.wf
  ra : st.1.num_rows = n
  ca : st.1.num_cols = n
  rb : st.2.num_rows = n
  cb : st.2.num_cols = m2

/-- The reduced-column invariant: every column before `k` already looks like
the corresponding identity column. -/
def ColsId (k : Nat) (a : Matrix) : Prop :=
  ∀ c : Nat, c < k → ∀ r : Nat, r < a.num_rows →
    a.get r c = if r = c then 1 else 0

theorem findPivot_some {m : Matrix} {k r : Nat} (h : findPivot m k = some r) :
    k ≤ r ∧ r < m.num_rows ∧ m.get r k ≠ 0 := by
  unfold findPivot at h
  have h1 := List.find?_some h
  have h2 := List.mem_of_find?_eq_some h
  rw [List.mem_range'_1] at h2
  exact ⟨h2.1, by omega, of_decide_eq_true h1⟩

theorem findPivot_none {m : Matrix} {k : Nat} (h : findPivot m k = none)
    (r : Nat) (hkr : k ≤ r) (hr : r < m.num_rows) : m.get r k = 0 := by
  unfold findPivot at h
  rw [List.find?_eq_none] at h
  have := h r (by rw [List.mem_range'_1]; omega)
  simpa using this

theorem findPivot_none_iff (m : Matrix) (k : Nat) :
    findPivot m k = none ↔
      ∀ r : Nat, k ≤ r → r < m.num_rows → m.get r k = 0 := by
  constructor
  · exact fun h r hkr hr => findPivot_none h r hkr hr
  · intro h
    unfold findPivot
    rw [List.find?_eq_none]
    intro r hr
    rw [List.mem_range'_1] at hr
    simp [h r hr.1 (by omega)]

theorem elimStep_of_none {n : Nat} {st : Matrix × Matrix} {k : Nat}
    (h : findPivot st.1 k = none) : elimStep n st k = none := by
  unfold elimStep
  rw [h]

theorem elimStep_of_some {n : Nat} {st : Matrix × Matrix} {k r : Nat}
    (h : findPivot st.1 k = some r) :
    elimStep n st k = some (elimFold k (List.range n)
      (scaleStep k (st.1.ero_switch k r, st.2.ero_switch k r))) := by
  unfold elimStep
  rw [h]

theorem elimStep_eq_none {n : Nat} {st : Matrix × Matrix} {k : Nat}
    (h : elimStep n st k = none) : findPivot st.1 k = none := by
  cases hfind : findPivot st.1 k with
  | none => rfl
  | some r =>
    rw [elimStep_of_some hfind] at h
    exact Option.noConfusion h

theorem elimLoop_nil (n : Nat) (st : Matrix × Matrix) :
    elimLoop n [] st = some st := rfl

theorem elimLoop_cons (n k : Nat) (ks : List Nat) (st : Matrix × Matrix) :
    elimLoop n (k :: ks) st
      = match elimStep n st k with
        | none => none
        | some st1 => elimLoop n ks st1 := rfl

theorem elimFold_nil (k : Nat) (st : Matrix × Matrix) :
    elimFold k [] st = st := rfl

theorem elimFold_cons (k r2 : Nat) (L : List Nat) (st : Matrix × Matrix) :
    elimFold k (r2 :: L) st
      = elimFold k L
          (if r2 = k then st
           else (st.1.ero_scale_add r2 k (-(st.1.get r2 k)),
             st.2.ero_scale_add r2 k (-(st.1.get r2 k)))) := rfl

theorem stInv_scale_add_pair {n m2 : Nat} {st : Matrix × Matrix}
    (h : StInv n m2 st) (r2 k : Nat) (q q' : ℚ) :
    StInv n m2 (st.1.ero_scale_add r2 k q, st.2.ero_scale_add r2 k q') :=
  ⟨Matrix.wf_ero_scale_add _ _ _ _, Matrix.wf_ero_scale_add _ _ _ _,
    by rw [Matrix.num_rows_ero_scale_add, h.ra],
    by rw [Matrix.num_cols_ero_scale_add, h.ca],
    by rw [Matrix.num_rows_ero_scale_add, h.rb],
    by rw [Matrix.num_cols_ero_scale_add, h.cb]⟩

theorem stInv_elimFold {n m2 k : Nat} (L : List Nat) :
    ∀ st : Matrix × Matrix, StInv n m2 st → StInv n m2 (elimFold k L st) := by
  induction L with
  | nil => exact fun st h => h
  | cons r2 L' ih =>
    intro st h
    rw [elimFold_cons]
    by_cases hr2 : r2 = k
    · rw [if_pos hr2]
      exact ih st h
    · rw [if_neg hr2]
      exact ih _ (stInv_scale_add_pair h r2 k _ _)

theorem elimFold_back {n m2 k : Nat} (hk : k < n) (L : List Nat) :
    ∀ st : Matrix × Matrix, (∀ r ∈ L, r < n) → StInv n m2 st →
      ∀ x : Matrix, x.wf → x.num_rows = n →
        Matrix.mulRaw (elimFold k L st).1 x = (elimFold k L st).2 →
        Matrix.mulRaw st.1 x = st.2 := by
  induction L with
  | nil => exact fun st _ _ x _ _ hsol => hsol
  | cons r2 L' ih =>
    intro st hL h x hx hxr hsol
    rw [elimFold_cons] at hsol
    by_cases hr2 : r2 = k
    · rw [if_pos hr2] at hsol
      exact ih st (fun r hr => hL r (List.mem_cons_of_mem _ hr)) h x hx hxr hsol
    · rw [if_neg hr2] at hsol
      have hr2n : r2 < n := hL r2 (List.mem_cons_self _ _)
      have hmid := ih _ (fun r hr => hL r (List.mem_cons_of_mem _ hr))
        (stInv_scale_add_pair h r2 k _ _) x hx hxr hsol
      rw [Matrix.mulRaw_ero_scale_add st.1 x r2 k _ (by rw [h.ra]; exact hr2n)
        (by rw [h.ra]; exact hk)] at hmid
      have hcast := congrArg
        (fun M : Matrix => M.ero_scale_add r2 k (-(-(st.1.get r2 k)))) hmid
      simp only at hcast
      rw [Matrix.ero_scale_add_ero_scale_add (Matrix.mulRaw st.1 x)
          (Matrix.wf_mulRaw _ _) r2 k _ hr2
          (by rw [Matrix.num_rows_mulRaw, h.ra]; exact hk),
        Matrix.ero_scale_add_ero_scale_add st.2 h.wb r2 k _ hr2
          (by rw [h.rb]; exact hk)] at hcast
      exact hcast

theorem elimFold_rowk {n m2 k : Nat} (hk : k < n) (L : List Nat) :
    ∀ st : Matrix × Matrix, StInv n m2 st → ∀ c : Nat, c < n →
      (elimFold k L st).1.get k c = st.1.get k c := by
  induction L with
  | nil => exact fun st _ c _ => rfl
  | cons r2 L' ih =>
    intro st h c hc
    rw [elimFold_cons]
    by_cases hr2 : r2 = k
    · rw [if_pos hr2]
      exact ih st h c hc
    · rw [if_neg hr2]
      rw [ih _ (stInv_scale_add_pair h r2 k _ _) c hc]
      show (st.1.ero_scale_add r2 k _).get k c = st.1.get k c
      rw [Matrix.get_ero_scale_add (by rw [h.ra]; exact hk)
        (by rw [h.ca]; exact hc), if_neg (fun hh => hr2 hh.symm)]

theorem elimFold_zero_stays {n m2 k : Nat} (hk : k < n) (L : List Nat) :
    ∀ st : Matrix × Matrix, StInv n m2 st → (∀ r ∈ L, r < n) →
      ∀ r : Nat, r < n → r ≠ k → st.1.get r k = 0 → st.1.get k k = 1 →
        (elimFold k L st).1.get r k = 0 := by
  induction L with
  | nil => exact fun st _ _ r _ _ hz _ => hz
  | cons r2 L' ih =>
    intro st h hL r hr hrk hz hpivot
    rw [elimFold_cons]
    by_cases hr2 : r2 = k
    · rw [if_pos hr2]
      exact ih st h (fun s hs => hL s (List.mem_cons_of_mem _ hs)) r hr hrk hz hpivot
    · rw [if_neg hr2]
      have hr2n : r2 < n := hL r2 (List.mem_cons_self _ _)
      apply ih _ (stInv_scale_add_pair h r2 k _ _)
        (fun s hs => hL s (List.mem_cons_of_mem _ hs)) r hr hrk
      · show (st.1.ero_scale_add r2 k _).get r k = 0
        rw [Matrix.get_ero_scale_add (by rw [h.ra]; exact hr)
          (by rw [h.ca]; exact hk)]
        by_cases hrr2 : r = r2
        · rw [if_pos hrr2, ← hrr2, hz, hpivot]
          ring
        · rw [if_neg hrr2]
          exact hz
      · show (st.1.ero_scale_add r2 k _).get k k = 1
        rw [Matrix.get_ero_scale_add (by rw [h.ra]; exact hk)
          (by rw [h.ca]; exact hk), if_neg (fun hh => hr2 hh.symm)]
        exact hpivot

theorem elimFold_zeroed {n m2 k : Nat} (hk : k < n) (L : List Nat) :
    ∀ st : Matrix × Matrix, StInv n m2 st → (∀ r ∈ L, r < n) →
      st.1.get k k = 1 → ∀ r ∈ L, r ≠ k →
        (elimFold k L st).1.get r k = 0 := by
  induction L with
  | nil => exact fun st _ _ _ r hr => absurd hr (List.not_mem_nil r)
  | cons r2 L' ih =>
    intro st h hL hpivot r hrL hrk
    rw [elimFold_cons]
    by_cases hr2 : r2 = k
    · rw [if_pos hr2]
      rcases List.mem_cons.mp hrL with h1 | h1
      · exact absurd (h1.trans hr2) hrk
      · exact ih st h (fun s hs => hL s (List.mem_cons_of_mem _ hs)) hpivot r h1 hrk
    · rw [if_neg hr2]
      have hr2n : r2 < n := hL r2 (List.mem_cons_self _ _)
      have hrn : r < n := hL r hrL
      have hinv2 := stInv_scale_add_pair h r2 k
        (-(st.1.get r2 k)) (-(st.1.get r2 k))
      have hpivot2 : (st.1.ero_scale_add r2 k (-(st.1.get r2 k))).get k k = 1 := by
        rw [Matrix.get_ero_scale_add (by rw [h.ra]; exact hk)
          (by rw [h.ca]; exact hk), if_neg (fun hh => hr2 hh.symm)]
        exact hpivot
      rcases List.mem_cons.mp hrL with h1 | h1
      · apply elimFold_zero_stays hk L' _ hinv2
          (fun s hs => hL s (List.mem_cons_of_mem _ hs)) r hrn hrk _ hpivot2
        show (st.1.ero_scale_add r2 k _).get r k = 0
        rw [Matrix.get_ero_scale_add (by rw [h.ra]; exact hrn)
          (by rw [h.ca]; exact hk), if_pos h1, h1, hpivot]
        ring
      · exact ih _ hinv2 (fun s hs => hL s (List.mem_cons_of_mem _ hs))
          hpivot2 r h1 hrk

theorem elimFold_cols_lt {n m2 k : Nat} (hk : k < n) (L : List Nat) :
    ∀ st : Matrix × Matrix, StInv n m2 st → (∀ r ∈ L, r < n) →
      (∀ c : Nat, c < k → st.1.get k c = 0) →
      ∀ r c : Nat, r < n → c < k →
        (elimFold k L st).1.get r c = st.1.get r c := by
  induction L with
  | nil => exact fun st _ _ _ r c _ _ => rfl
  | cons r2 L' ih =>
    intro st h hL hrowk r c hr hc
    rw [elimFold_cons]
    by_cases hr2 : r2 = k
    · rw [if_pos hr2]
      exact ih st h (fun s hs => hL s (List.mem_cons_of_mem _ hs)) hrowk r c hr hc
    · rw [if_neg hr2]
      have hr2n : r2 < n := hL r2 (List.mem_cons_self _ _)
      have hrowk2 : ∀ c' : Nat, c' < k →
          (st.1.ero_scale_add r2 k (-(st.1.get r2 k))).get k c' = 0 := by
        intro c' hc'
        rw [Matrix.get_ero_scale_add (by rw [h.ra]; exact hk)
          (by rw [h.ca]; omega), if_neg (fun hh => hr2 hh.symm)]
        exact hrowk c' hc'
      rw [ih _ (stInv_scale_add_pair h r2 k _ _)
        (fun s hs => hL s (List.mem_cons_of_mem _ hs)) hrowk2 r c hr hc]
      show (st.1.ero_scale_add r2 k _).get r c = st.1.get r c
      rw [Matrix.get_ero_scale_add (by rw [h.ra]; exact hr)
        (by rw [h.ca]; omega)]
      by_cases hrr2 : r = r2
      · rw [if_pos hrr2, hrowk c hc]
        ring
      · rw [if_neg hrr2]

theorem stInv_switch_pair {n m2 : Nat} {st : Matrix × Matrix}
    (h : StInv n m2 st) (k r0 : Nat) :
    StInv n m2 (st.1.ero_switch k r0, st.2.ero_switch k r0) :=
  ⟨Matrix.wf_ero_switch _ _ _, Matrix.wf_ero_switch _ _ _,
    by rw [Matrix.num_rows_ero_switch, h.ra],
    by rw [Matrix.num_cols_ero_switch, h.ca],
    by rw [Matrix.num_rows_ero_switch, h.rb],
    by rw [Matrix.num_cols_ero_switch, h.cb]⟩

theorem stInv_scaleStep {n m2 k : Nat} {st : Matrix × Matrix}
    (h : StInv n m2 st) : StInv n m2 (scaleStep k st) := by
  unfold scaleStep
  by_cases hp : st.1.get k k = 1
  · rw [if_pos hp]
    exact h
  · rw [if_neg hp]
    exact ⟨Matrix.wf_ero_scale _ _ _, Matrix.wf_ero_scale _ _ _,
      by rw [Matrix.num_rows_ero_scale, h.ra],
      by rw [Matrix.num_cols_ero_scale, h.ca],
      by rw [Matrix.num_rows_ero_scale, h.rb],
      by rw [Matrix.num_cols_ero_scale, h.cb]⟩

theorem scaleStep_pivot {n m2 k : Nat} {st : Matrix × Matrix}
    (h : StInv n m2 st) (hk : k < n) (hp : st.1.get k k ≠ 0) :
    (scaleStep k st).1.get k k = 1 := by
  unfold scaleStep
  by_cases h1 : st.1.get k k = 1
  · rw [if_pos h1]
    exact h1
  · rw [if_neg h1]
    show (st.1.ero_scale k _).get k k = 1
    rw [Matrix.get_ero_scale (by rw [h.ra]; exact hk) (by rw [h.ca]; exact hk),
      if_pos rfl, one_div_mul_cancel hp]

theorem scaleStep_cols {n m2 k : Nat} {st : Matrix × Matrix}
    (h : StInv n m2 st) (hk : k < n) (hcols : ColsId k st.1) :
    ColsId k (scaleStep k st).1 := by
  unfold scaleStep
  by_cases h1 : st.1.get k k = 1
  · rw [if_pos h1]
    exact hcols
  · rw [if_neg h1]
    intro c hc r hr
    have hrn : r < st.1.num_rows := hr
    show (st.1.ero_scale k _).get r c = _
    rw [Matrix.get_ero_scale hrn (by rw [h.ca]; rw [h.ra] at hrn; omega)]
    by_cases hrk : r = k
    · have hne : ¬ r = c := by omega
      rw [if_pos hrk, hcols c hc r hrn, if_neg hne, mul_zero]
    · rw [if_neg hrk]
      exact hcols c hc r hrn

theorem scaleStep_back {n m2 k : Nat} {st : Matrix × Matrix}
    (h : StInv n m2 st) (hk : k < n) (hp : st.1.get k k ≠ 0)
    (x : Matrix) (hx : x.wf) (hxr : x.num_rows = n)
    (hsol : Matrix.mulRaw (scaleStep k st).1 x = (scaleStep k st).2) :
    Matrix.mulRaw st.1 x = st.2 := by
  unfold scaleStep at hsol
  by_cases h1 : st.1.get k k = 1
  · rw [if_pos h1] at hsol
    exact hsol
  · rw [if_neg h1] at hsol
    rw [Matrix.mulRaw_ero_scale st.1 x k _ (by rw [h.ra]; exact hk)] at hsol
    have hcast := congrArg (fun M : Matrix => M.ero_scale k (st.1.get k k)) hsol
    simp only at hcast
    rw [Matrix.ero_scale_ero_scale (Matrix.mulRaw st.1 x)
        (Matrix.wf_mulRaw _ _) k _ _ (mul_one_div_cancel hp),
      Matrix.ero_scale_ero_scale st.2 h.wb k _ _ (mul_one_div_cancel hp)]
      at hcast
    exact hcast

theorem pivot_after_switch {a : Matrix} {k r0 : Nat} (hk : k < a.num_rows)
    (hkc : k < a.num_cols) : (a.ero_switch k r0).get k k = a.get r0 k := by
  rw [Matrix.get_ero_switch hk hkc, if_pos rfl]

theorem colsId_ero_switch {a : Matrix} {k r0 : Nat}
    (hk : k < a.num_rows) (hr0 : r0 < a.num_rows) (hkr : k ≤ r0)
    (hkc : k ≤ a.num_cols) (hcols : ColsId k a) :
    ColsId k (a.ero_switch k r0) := by
  intro c hc r hr
  have hrn : r < a.num_rows := hr
  have hcn : c < a.num_cols := by omega
  rw [Matrix.get_ero_switch hrn hcn]
  by_cases h1 : r = k
  · rw [if_pos h1, hcols c hc r0 hr0, if_neg (by omega : ¬ r0 = c), h1,
      if_neg (by omega : ¬ k = c)]
  · rw [if_neg h1]
    by_cases h2 : r = r0
    · rw [if_pos h2, hcols c hc k hk, if_neg (by omega : ¬ k = c),
        if_neg (show ¬ r = c by omega)]
    · rw [if_neg h2]
      exact hcols c hc r hrn

theorem elimStep_inv {n m2 : Nat} {st st' : Matrix × Matrix} {k : Nat}
    (h : StInv n m2 st) (hk : k < n) (hcols : ColsId k st.1)
    (hstep : elimStep n st k = some st') :
    StInv n m2 st' ∧ ColsId (k + 1) st'.1 := by
  cases hfind : findPivot st.1 k with
  | none =>
    rw [elimStep_of_none hfind] at hstep
    exact Option.noConfusion hstep
  | some r0 =>
    rw [elimStep_of_some hfind] at hstep
    injection hstep with hst'
    subst hst'
    obtain ⟨hkr0, hr0n, hp0⟩ := findPivot_some hfind
    have hswInv : StInv n m2 (st.1.ero_switch k r0, st.2.ero_switch k r0) :=
      stInv_switch_pair h k r0
    have hswCols : ColsId k (st.1.ero_switch k r0) :=
      colsId_ero_switch (by rw [h.ra]; exact hk) hr0n hkr0
        (by rw [h.ca, ← h.ra]; omega) hcols
    have hswPivot : (st.1.ero_switch k r0).get k k ≠ 0 := by
      rw [pivot_after_switch (by rw [h.ra]; exact hk) (by rw [h.ca]; exact hk)]
      exact hp0
    have hscInv : StInv n m2
        (scaleStep k (st.1.ero_switch k r0, st.2.ero_switch k r0)) :=
      stInv_scaleStep hswInv
    have hscPivot :
        (scaleStep k (st.1.ero_switch k r0, st.2.ero_switch k r0)).1.get k k
          = 1 := scaleStep_pivot hswInv hk hswPivot
    have hscCols : ColsId k
        (scaleStep k (st.1.ero_switch k r0, st.2.ero_switch k r0)).1 :=
      scaleStep_cols hswInv hk hswCols
    refine ⟨stInv_elimFold _ _ hscInv, ?_⟩
    intro c hc r hr
    have hrn : r < n := by
      rw [(stInv_elimFold (List.range n) _ hscInv).ra] at hr
      exact hr
    rcases Nat.lt_or_ge c k with hck | hck
    · rw [elimFold_cols_lt hk (List.range n) _ hscInv
        (fun s hs => List.mem_range.mp hs) ?_ r c hrn hck]
      · exact hscCols c hck r (by rw [hscInv.ra]; exact hrn)
      · intro c' hc'
        have := hscCols c' hc' k (by rw [hscInv.ra]; exact hk)
        rw [if_neg (by omega : ¬ k = c')] at this
        exact this
    · have hck' : c = k := by omega
      subst hck'
      by_cases hrk : r = c
      · rw [hrk, elimFold_rowk hk (List.range n) _ hscInv c hk, hscPivot,
          if_pos rfl]
      · rw [elimFold_zeroed hk (List.range n) _ hscInv
          (fun s hs => List.mem_range.mp hs) hscPivot r
          (List.mem_range.mpr hrn) hrk, if_neg hrk]

theorem elimStep_back {n m2 : Nat} {st st' : Matrix × Matrix} {k : Nat}
    (h : StInv n m2 st) (hk : k < n)
    (hstep : elimStep n st k = some st') (x : Matrix) (hx : x.wf)
    (hxr : x.num_rows = n) (hsol : Matrix.mulRaw st'.1 x = st'.2) :
    Matrix.mulRaw st.1 x = st.2 := by
  cases hfind : findPivot st.1 k with
  | none =>
    rw [elimStep_of_none hfind] at hstep
    exact Option.noConfusion hstep
  | some r0 =>
    rw [elimStep_of_some hfind] at hstep
    injection hstep with hst'
    subst hst'
    obtain ⟨hkr0, hr0n, hp0⟩ := findPivot_some hfind
    have hswInv : StInv n m2 (st.1.ero_switch k r0, st.2.ero_switch k r0) :=
      stInv_switch_pair h k r0
    have hswPivot : (st.1.ero_switch k r0).get k k ≠ 0 := by
      rw [pivot_after_switch (by rw [h.ra]; exact hk) (by rw [h.ca]; exact hk)]
      exact hp0
    have h2 := elimFold_back hk (List.range n) _
      (fun s hs => List.mem_range.mp hs) (stInv_scaleStep hswInv) x hx hxr hsol
    have h3 := scaleStep_back hswInv hk hswPivot x hx hxr h2
    rw [Matrix.mulRaw_ero_switch st.1 x k r0 (by rw [h.ra]; exact hk) hr0n]
      at h3
    have hcast := congrArg (fun M : Matrix => M.ero_switch k r0) h3
    simp only at hcast
    rw [Matrix.ero_switch_ero_switch (Matrix.mulRaw st.1 x)
        (Matrix.wf_mulRaw _ _) k r0
        (by rw [Matrix.num_rows_mulRaw, h.ra]; exact hk)
        (by rw [Matrix.num_rows_mulRaw]; exact hr0n),
      Matrix.ero_switch_ero_switch st.2 h.wb k r0 (by rw [h.rb]; exact hk)
        (by rw [h.rb, ← h.ra]; exact hr0n)] at hcast
    exact hcast

theorem elimLoop_sound {n m2 : Nat} (d : Nat) :
    ∀ (j : Nat) (st st' : Matrix × Matrix), n - j = d → j ≤ n →
      StInv n m2 st → ColsId j st.1 →
      elimLoop n (List.range' j (n - j)) st = some st' →
      StInv n m2 st' ∧ ColsId n st'.1 ∧
        (∀ x : Matrix, x.wf → x.num_rows = n →
          Matrix.mulRaw st'.1 x = st'.2 → Matrix.mulRaw st.1 x = st.2) := by
  induction d with
  | zero =>
    intro j st st' hd hj hinv hcols hrun
    have hjn : j = n := by omega
    rw [hd, show List.range' j 0 = [] from rfl, elimLoop_nil] at hrun
    injection hrun with hst
    subst hst
    exact ⟨hinv, hjn ▸ hcols, fun x _ _ hs => hs⟩
  | succ d ih =>
    intro j st st' hd hj hinv hcols hrun
    have hjn : j < n := by omega
    rw [hd, List.range'_succ j d 1, elimLoop_cons] at hrun
    cases hstep : elimStep n st j with
    | none =>
      rw [hstep] at hrun
      exact Option.noConfusion hrun
    | some st1 =>
      rw [hstep] at hrun
      obtain ⟨hinv1, hcols1⟩ := elimStep_inv hinv hjn hcols hstep
      have hd1 : n - (j + 1) = d := by omega
      have hrun' : elimLoop n (List.range' (j + 1) (n - (j + 1))) st1
          = some st' := by
        rw [hd1]
        exact hrun
      obtain ⟨hI, hC, hB⟩ := ih (j + 1) st1 st' hd1 (by omega) hinv1 hcols1 hrun'
      exact ⟨hI, hC, fun x hx hxr hs =>
        elimStep_back hinv hjn hstep x hx hxr (hB x hx hxr hs)⟩

theorem elimFold_fst_indep (k : Nat) (L : List Nat) :
    ∀ a b b' : Matrix, (elimFold k L (a, b)).1 = (elimFold k L (a, b')).1 := by
  induction L with
  | nil => exact fun a b b' => rfl
  | cons r2 L' ih =>
    intro a b b'
    rw [elimFold_cons, elimFold_cons]
    by_cases hr2 : r2 = k
    · rw [if_pos hr2, if_pos hr2]
      exact ih a b b'
    · rw [if_neg hr2, if_neg hr2]
      exact ih _ _ _

theorem elimFold_snd_zeros (n k : Nat) (L : List Nat) :
    ∀ a : Matrix,
      (elimFold k L (a, Matrix.zeros n 1)).2 = Matrix.zeros n 1 := by
  induction L with
  | nil => exact fun a => rfl
  | cons r2 L' ih =>
    intro a
    rw [elimFold_cons]
    by_cases hr2 : r2 = k
    · rw [if_pos hr2]
      exact ih a
    · rw [if_neg hr2]
      show (elimFold k L'
        (a.ero_scale_add r2 k (-(a.get r2 k)),
          (Matrix.zeros n 1).ero_scale_add r2 k (-(a.get r2 k)))).2
        = Matrix.zeros n 1
      rw [Matrix.ero_scale_add_zeros n 1 r2 k _]
      exact ih _

theorem elimFold_pair_zeros (n k : Nat) (L : List Nat) (a b : Matrix) :
    elimFold k L (a, Matrix.zeros n 1)
      = ((elimFold k L (a, b)).1, Matrix.zeros n 1) := by
  have h1 := elimFold_fst_indep k L a (Matrix.zeros n 1) b
  have h2 := elimFold_snd_zeros n k L a
  exact Prod.ext h1 h2

theorem scaleStep_pair_zeros (n k : Nat) (a b : Matrix) :
    scaleStep k (a, Matrix.zeros n 1)
      = ((scaleStep k (a, b)).1, Matrix.zeros n 1) := by
  unfold scaleStep
  by_cases h1 : a.get k k = 1
  · rw [if_pos (show (a, Matrix.zeros n 1).1.get k k = 1 from h1),
      if_pos (show (a, b).1.get k k = 1 from h1)]
  · rw [if_neg (show ¬ (a, Matrix.zeros n 1).1.get k k = 1 from h1),
      if_neg (show ¬ (a, b).1.get k k = 1 from h1)]
    show (a.ero_scale k _, (Matrix.zeros n 1).ero_scale k _) = _
    rw [Matrix.ero_scale_zeros n 1 k _]

theorem elimStep_pair_zeros (n k r0 : Nat) (a b : Matrix)
    (hfind : findPivot a k = some r0) :
    elimStep n (a, Matrix.zeros n 1) k
      = some ((elimFold k (List.range n)
          (scaleStep k (a.ero_switch k r0, b.ero_switch k r0))).1,
        Matrix.zeros n 1) := by
  rw [elimStep_of_some
    (show findPivot (a, Matrix.zeros n 1).1 k = some r0 from hfind)]
  congr 1
  show elimFold k (List.range n)
      (scaleStep k (a.ero_switch k r0, (Matrix.zeros n 1).ero_switch k r0))
    = _
  rw [Matrix.ero_switch_zeros n 1 k r0,
    scaleStep_pair_zeros n k (a.ero_switch k r0) (b.ero_switch k r0),
    elimFold_pair_zeros n k (List.range n)
      (scaleStep k (a.ero_switch k r0, b.ero_switch k r0)).1
      (scaleStep k (a.ero_switch k r0, b.ero_switch k r0)).2]

theorem elimLoop_complete {n m2 : Nat} (d : Nat) :
    ∀ (j : Nat) (st : Matrix × Matrix), n - j = d → j ≤ n →
      StInv n m2 st → ColsId j st.1 →
      elimLoop n (List.range' j (n - j)) st = none →
      ∃ x : Matrix, x.wf ∧ x.num_rows = n ∧ x.num_cols = 1 ∧
        x ≠ Matrix.zeros n 1 ∧ Matrix.mulRaw st.1 x = Matrix.zeros n 1 := by
  induction d with
  | zero =>
    intro j st hd hj hinv hcols hrun
    rw [hd, show List.range' j 0 = [] from rfl, elimLoop_nil] at hrun
    exact Option.noConfusion hrun
  | succ d ih =>
    intro j st hd hj hinv hcols hrun
    have hjn : j < n := by omega
    rw [hd, List.range'_succ j d 1, elimLoop_cons] at hrun
    cases hstep : elimStep n st j with
    | none =>
      have hfind : findPivot st.1 j = none := elimStep_eq_none hstep
      have hfail : ∀ r : Nat, j ≤ r → r < n → st.1.get r j = 0 := by
        intro r h1 h2
        exact findPivot_none hfind r h1 (by rw [hinv.ra]; exact h2)
      refine ⟨Matrix.ofFn n 1 fun r _ =>
        if r = j then 1 else if r < j then -(st.1.get r j) else 0,
        Matrix.wf_ofFn _ _ _, rfl, rfl, ?_, ?_⟩
      · intro heq
        have h00 := congrArg (fun M : Matrix => M.get j 0) heq
        simp only at h00
        rw [Matrix.get_ofFn _ hjn Nat.zero_lt_one, if_pos rfl,
          Matrix.get_zeros] at h00
        exact one_ne_zero h00
      · apply Matrix.ext_pointwise
          (Matrix.mulRaw st.1 (Matrix.ofFn n 1 fun r _ =>
            if r = j then 1 else if r < j then -(st.1.get r j) else 0))
          (Matrix.zeros n 1) (Matrix.wf_mulRaw _ _) (Matrix.wf_zeros n 1)
          (by rw [Matrix.num_rows_mulRaw, hinv.ra]; rfl) rfl
        intro i c hi hc
        have hin : i < n := by
          rw [Matrix.num_rows_mulRaw, hinv.ra] at hi
          exact hi
        have hc0 : c = 0 := by
          have hc1 : c < 1 := hc
          omega
        subst hc0
        rw [Matrix.get_zeros,
          Matrix.get_mulRaw (by rw [hinv.ra]; exact hin) Nat.zero_lt_one,
          hinv.ca]
        rcases Nat.lt_or_ge i j with hij | hij
        · have hterm : ∀ t ∈ Finset.range n,
              st.1.get i t * (Matrix.ofFn n 1 fun r _ =>
                if r = j then 1 else if r < j then -(st.1.get r j) else 0).get t 0
                = (if t = j then st.1.get i j else 0)
                  + (if t = i then -(st.1.get i j) else 0) := by
            intro t ht
            have htn : t < n := Finset.mem_range.mp ht
            rw [Matrix.get_ofFn _ htn Nat.zero_lt_one]
            by_cases h1 : t = j
            · rw [if_pos h1, if_pos h1, if_neg (by omega : ¬ t = i), mul_one,
                h1, add_zero]
            · rw [if_neg h1, if_neg h1]
              by_cases h2 : t = i
              · rw [if_pos (by omega : t < j), if_pos h2, h2, zero_add,
                  hcols i (by omega) i (by rw [hinv.ra]; exact hin),
                  if_pos rfl, one_mul]
              · rw [if_neg h2, add_zero]
                by_cases h3 : t < j
                · rw [if_pos h3,
                    hcols t h3 i (by rw [hinv.ra]; exact hin),
                    if_neg (fun hh => h2 hh.symm), zero_mul]
                · rw [if_neg h3, mul_zero]
          rw [Finset.sum_congr rfl hterm, Finset.sum_add_distrib,
            Finset.sum_ite_eq' (Finset.range n) j fun _ => st.1.get i j,
            Finset.sum_ite_eq' (Finset.range n) i fun _ => -(st.1.get i j),
            if_pos (Finset.mem_range.mpr hjn),
            if_pos (Finset.mem_range.mpr hin)]
          ring
        · refine Finset.sum_eq_zero fun t ht => ?_
          have htn : t < n := Finset.mem_range.mp ht
          rw [Matrix.get_ofFn _ htn Nat.zero_lt_one]
          by_cases h1 : t = j
          · rw [if_pos h1, mul_one, h1, hfail i hij hin]
          · rw [if_neg h1]
            by_cases h3 : t < j
            · rw [if_pos h3, hcols t h3 i (by rw [hinv.ra]; exact hin),
                if_neg (by omega : ¬ i = t), zero_mul]
            · rw [if_neg h3, mul_zero]
    | some st1 =>
      rw [hstep] at hrun
      obtain ⟨hinv1, hcols1⟩ := elimStep_inv hinv hjn hcols hstep
      have hd1 : n - (j + 1) = d := by omega
      have hrun' : elimLoop n (List.range' (j + 1) (n - (j + 1))) st1
          = none := by
        rw [hd1]
        exact hrun
      obtain ⟨x, hxw, hxr, hxc, hxne, hxker⟩ :=
        ih (j + 1) st1 hd1 (by omega) hinv1 hcols1 hrun'
      refine ⟨x, hxw, hxr, hxc, hxne, ?_⟩
      have hzInv : StInv n 1 (st.1, Matrix.zeros n 1) :=
        ⟨hinv.wa, Matrix.wf_zeros n 1, hinv.ra, hinv.ca, rfl, rfl⟩
      cases hfind : findPivot st.1 j with
      | none =>
        rw [elimStep_of_none hfind] at hstep
        exact Option.noConfusion hstep
      | some r0 =>
        have hpair := elimStep_pair_zeros n j r0 st.1 st.2 hfind
        rw [elimStep_of_some hfind] at hstep
        injection hstep with hst1
        rw [congrArg Prod.fst hst1] at hpair
        have hsolz : Matrix.mulRaw (st1.1, Matrix.zeros n 1).1 x
            = (st1.1, Matrix.zeros n 1).2 := hxker
        exact elimStep_back hzInv hjn hpair x hxw hxr hsolz

/-- Modelled from the spec: a square matrix is non-singular when its kernel
is trivial — the only column vector it sends to zero is the zero vector. -/
def Nonsingular (A : Matrix) : Prop :=
  ∀ x : Matrix, x.wf → x.num_rows = A.num_rows → x.num_cols = 1 →
    Matrix.mulRaw A x = Matrix.zeros A.num_rows 1 →
    x = Matrix.zeros A.num_rows 1

/-- Claim C1: for every non-singular square `A` and compatible right-hand
side `b`, `GaussElimination.new(A,b).solve()` returns a solution `x` with
`A.mul(x) = b` (exactly, over the exact rational idealisation of the
floating-point elements), obtained by full reduction to reduced row-echelon
form with first-nonzero pivoting, pivot normalization skipped at 1, and
`scale_add` clearing above and below, so no back-substitution happens. -/
theorem gauss_solve_correct (A b : Matrix) (hA : A.wf) (hb : b.wf)
    (hsq : A.num_rows = A.num_cols) (hbr : b.num_rows = A.num_rows)
    (hns : Nonsingular A) :
    ∃ (g : GaussElimination) (x : Matrix),
      GaussElimination.new A b = .ok g ∧ g.solve = .ok x ∧
        A.mul x = .ok b := by
  have hnew : GaussElimination.new A b = .ok ⟨A, b⟩ := by
    unfold GaussElimination.new
    rw [if_pos hsq, if_pos hbr]
  have hInv : StInv A.num_rows b.num_cols (A, b) :=
    ⟨hA, hb, rfl, hsq.symm, hbr, rfl⟩
  have hcols0 : ColsId 0 (A, b).1 := fun c hc => absurd hc (Nat.not_lt_zero c)
  cases hrun : elimLoop A.num_rows (List.range A.num_rows) (A, b) with
  | none =>
    exfalso
    have hrun' : elimLoop A.num_rows (List.range' 0 (A.num_rows - 0)) (A, b)
        = none := by
      rw [Nat.sub_zero, ← List.range_eq_range' A.num_rows]
      exact hrun
    obtain ⟨x, hxw, hxr, hxc, hxne, hxker⟩ :=
      elimLoop_complete (A.num_rows - 0) 0 (A, b) rfl (Nat.zero_le _) hInv
        hcols0 hrun'
    exact hxne (hns x hxw hxr hxc hxker)
  | some stf =>
    have hrun' : elimLoop A.num_rows (List.range' 0 (A.num_rows - 0)) (A, b)
        = some stf := by
      rw [Nat.sub_zero, ← List.range_eq_range' A.num_rows]
      exact hrun
    obtain ⟨hIf, hCf, hBf⟩ :=
      elimLoop_sound (A.num_rows - 0) 0 (A, b) stf rfl (Nat.zero_le _) hInv
        hcols0 hrun'
    have hid : stf.1 = Matrix.identity A.num_rows := by
      apply Matrix.ext_pointwise stf.1 (Matrix.identity A.num_rows) hIf.wa
        (Matrix.wf_ofFn _ _ _) (by rw [hIf.ra]; rfl) (by rw [hIf.ca]; rfl)
      intro i j hi hj
      have hin : i < A.num_rows := by rw [← hIf.ra]; exact hi
      have hjn : j < A.num_rows := by rw [← hIf.ca]; exact hj
      rw [Matrix.get_identity hin hjn]
      exact hCf j hjn i hi
    refine ⟨⟨A, b⟩, stf.2, hnew, ?_, ?_⟩
    · show GaussElimination.solve ⟨A, b⟩ = .ok stf.2
      show (match elimLoop A.num_rows (List.range A.num_rows) (A, b) with
        | none => (Except.error SolverError.SingularMatrix :
            Except SolverError Matrix)
        | some st => Except.ok st.2) = Except.ok stf.2
      rw [hrun]
    · unfold Matrix.mul
      rw [if_pos (show A.num_cols = stf.2.num_rows by rw [hIf.rb, hsq])]
      have hsol : Matrix.mulRaw stf.1 stf.2 = stf.2 := by
        rw [hid]
        exact Matrix.mulRaw_identity_left A.num_rows stf.2 hIf.wb hIf.rb
      have hfin := hBf stf.2 hIf.wb hIf.rb hsol
      rw [show Matrix.mulRaw A stf.2 = b from hfin]

/-- The 1×1 matrix `[2]` has trivial kernel. -/
theorem nonsingular_two : Nonsingular ⟨1, 1, [2]⟩ := by
  intro x hxw hxr hxc hker
  have hxr1 : x.num_rows = 1 := hxr
  have hxc1 : x.num_cols = 1 := hxc
  have hker1 : Matrix.mulRaw ⟨1, 1, [2]⟩ x = Matrix.zeros 1 1 := hker
  have hsum : (Matrix.mulRaw ⟨1, 1, [2]⟩ x).get 0 0 = 2 * x.get 0 0 := by
    rw [Matrix.get_mulRaw Nat.zero_lt_one
      (show 0 < x.num_cols by rw [hxc1]; exact Nat.zero_lt_one)]
    show (∑ k ∈ Finset.range 1, (Matrix.mk 1 1 [2]).get 0 k * x.get k 0)
      = 2 * x.get 0 0
    rw [Finset.sum_range_one]
    norm_num [Matrix.get]
  have h00 := congrArg (fun M : Matrix => M.get 0 0) hker1
  simp only at h00
  rw [hsum, Matrix.get_zeros] at h00
  have hx0 : x.get 0 0 = 0 := by linarith
  show x = Matrix.zeros 1 1
  apply Matrix.ext_pointwise x (Matrix.zeros 1 1) hxw (Matrix.wf_zeros 1 1)
    hxr1 hxc1
  intro i j hi hj
  rw [hxr1] at hi
  rw [hxc1] at hj
  have hi0 : i = 0 := by omega
  have hj0 : j = 0 := by omega
  subst hi0
  subst hj0
  rw [Matrix.get_zeros]
  exact hx0

/-- Witness for C1 at `A = [[2]]`, `b = [[4]]`. -/
theorem gauss_solve_correct_witness :
    ∃ (g : GaussElimination) (x : Matrix),
      GaussElimination.new ⟨1, 1, [2]⟩ ⟨1, 1, [4]⟩ = .ok g ∧
        g.solve = .ok x ∧
        (Matrix.mk 1 1 [2]).mul x = .ok (Matrix.mk 1 1 [4]) :=
  gauss_solve_correct ⟨1, 1, [2]⟩ ⟨1, 1, [4]⟩ (by decide) (by decide)
    (by decide) (by decide) nonsingular_two

/-- The coefficient matrix `[[1,0],[0,0]]` of the specified singular
example, stored column-major. -/
def exA : Matrix := ⟨2, 2, [1, 0, 0, 0]⟩

/-- The right-hand side `[[1],[1]]` of the specified singular example. -/
def exb : Matrix := ⟨2, 1, [1, 1]⟩

/-- Claim C2: the pivot search scans rows `≥ k` top-to-bottom for the first
nonzero entry of column `k`; when no row qualifies the loop aborts and
`solve` fails with the `SingularMatrix` error, and that is the only way
`solve` fails; in particular `A=[[1,0],[0,0]]`, `b=[[1],[1]]` makes `solve`
fail with `SingularMatrix`. -/
theorem solve_singular_spec :
    (∀ (m : Matrix) (k : Nat), findPivot m k = none ↔
      ∀ r : Nat, k ≤ r → r < m.num_rows → m.get r k = 0) ∧
    (∀ (n k : Nat) (L : List Nat) (st : Matrix × Matrix),
      findPivot st.1 k = none → elimLoop n (k :: L) st = none) ∧
    (∀ g : GaussElimination, g.solve = .error .SingularMatrix ↔
      elimLoop g.a.num_rows (List.range g.a.num_rows) (g.a, g.b) = none) ∧
    GaussElimination.solve ⟨exA, exb⟩ = .error .SingularMatrix := by
  refine ⟨findPivot_none_iff, ?_, ?_, ?_⟩
  · intro n k L st hfind
    rw [elimLoop_cons, elimStep_of_none hfind]
  · intro g
    unfold GaussElimination.solve
    cases helim : elimLoop g.a.num_rows (List.range g.a.num_rows) (g.a, g.b)
      with
    | none => simp
    | some st => simp
  · have hwA : exA.wf := by decide
    have hwb : exb.wf := by decide
    have hfind0 : findPivot exA 0 = some 0 := rfl
    have hscale : scaleStep 0 (exA, exb) = (exA, exb) := by
      unfold scaleStep
      rw [if_pos (show (exA, exb).1.get 0 0 = 1 from rfl)]
    have hstep0 : elimStep 2 (exA, exb) 0
        = some (exA.ero_scale_add 1 0 (-(exA.get 1 0)),
            exb.ero_scale_add 1 0 (-(exA.get 1 0))) := by
      rw [elimStep_of_some hfind0,
        show (exA, exb).1.ero_switch 0 0 = exA from
          Matrix.ero_switch_self exA hwA 0,
        show (exA, exb).2.ero_switch 0 0 = exb from
          Matrix.ero_switch_self exb hwb 0,
        hscale, show List.range 2 = [0, 1] from rfl, elimFold_cons,
        if_pos rfl, elimFold_cons, if_neg (by omega : ¬ (1 : Nat) = 0),
        elimFold_nil]
    have hg11 : (exA.ero_scale_add 1 0 (-(exA.get 1 0))).get 1 1 = 0 := by
      rw [Matrix.get_ero_scale_add (show (1 : Nat) < exA.num_rows by decide)
        (show (1 : Nat) < exA.num_cols by decide), if_pos rfl]
      norm_num [exA, Matrix.get]
    have hfind1 : findPivot (exA.ero_scale_add 1 0 (-(exA.get 1 0))) 1
        = none := by
      unfold findPivot
      rw [show (exA.ero_scale_add 1 0 (-(exA.get 1 0))).num_rows - 1 = 1
          from rfl,
        show List.range' 1 1 = [1] from rfl]
      simp [List.find?, hg11]
    have hloop : elimLoop 2 (List.range 2) (exA, exb) = none := by
      rw [show List.range 2 = [0, 1] from rfl, elimLoop_cons, hstep0]
      show elimLoop 2 [1] (exA.ero_scale_add 1 0 (-(exA.get 1 0)),
        exb.ero_scale_add 1 0 (-(exA.get 1 0))) = none
      rw [elimLoop_cons, elimStep_of_none hfind1]
    show (match elimLoop 2 (List.range 2) (exA, exb) with
      | none => (Except.error SolverError.SingularMatrix :
          Except SolverError Matrix)
      | some st => Except.ok st.2) = Except.error SolverError.SingularMatrix
    rw [hloop]

/-- Witness for C2: a failed pivot search aborts the loop on a concrete
state. -/
theorem solve_singular_spec_witness :
    elimLoop 1 [0] (Matrix.zeros 1 1, Matrix.zeros 1 1) = none :=
  solve_singular_spec.2.1 1 0 [] (Matrix.zeros 1 1, Matrix.zeros 1 1)
    (by decide)

/-- Counterexample to claim C3 as stated: the `MatrixError` taxonomy
declared in the sources has no five pairwise-distinct values — it has
exactly the four kinds `EmptyMatrix`, `DimensionsMismatch`,
`NonSquareMatrix`, `NotAVector`, and no `SingularMatrix` variant. -/
theorem matrix_error_five_counterexample :
    ¬ ∃ e1 e2 e3 e4 e5 : MatrixError,
      e1 ≠ e2 ∧ e1 ≠ e3 ∧ e1 ≠ e4 ∧ e1 ≠ e5 ∧ e2 ≠ e3 ∧ e2 ≠ e4 ∧
        e2 ≠ e5 ∧ e3 ≠ e4 ∧ e3 ≠ e5 ∧ e4 ≠ e5 := by decide

/-- Claim C3 amended: every `MatrixError` value is one of the four declared
kinds — `EmptyMatrix`, `DimensionsMismatch`, `NonSquareMatrix`,
`NotAVector`; there are exactly four, not five, and the solver's
singular-matrix failure is not among them. -/
theorem matrix_error_amended :
    (∀ e : MatrixError, e = .EmptyMatrix ∨ e = .DimensionsMismatch ∨
      e = .NonSquareMatrix ∨ e = .NotAVector) ∧
    Fintype.card MatrixError = 4 := by
  constructor
  · intro e
    cases e
    · exact Or.inl rfl
    · exact Or.inr (Or.inl rfl)
    · exact Or.inr (Or.inr (Or.inl rfl))
    · exact Or.inr (Or.inr (Or.inr rfl))
  · decide

end Scirust
